import Mathlib

/-!
Shallow embedding of `chord_cutter/chord_cutter.py` (class `ChordCutter`):
the vertebra registry (`add_vertebrae`, `add_vertebrae_group`) and the
segmentation routine `cut_chord`, together with its volume arithmetic.

A `Volume` models a 3-dimensional boolean occupancy array on a fixed grid,
indexed by `(x, y, z)` with `z` the axial-slice axis, exactly as the numpy
arrays handled by `cut_chord`.  Counting operations (`vert.sum()`,
`vert.sum((0,1))`, `chord_t.sum()`) become finite sums over the grid ranges.
The per-slice density test `(slice/total) > T` is embedded over `ℚ`.

The mask files that `cut_chord` reads from `seg_path` are modelled as a
partial map `masks : String → Option Volume`; `load_nifti` on a path whose
file is absent raises (SimpleITK `ReadImage` fails), which the embedding
renders as the `loadFailure` error.  `arr_th.min()` on an empty numpy array
raises `ValueError`, rendered as the `emptyQualifyingSet` error.  Python
`dict` insertion (`values[v] = ...`) is `dictInsert`, which overwrites the
first binding of the key in place and otherwise appends.
-/

namespace ChordCutter

/-- A 3-dimensional boolean occupancy array with grid extents `nx, ny, nz`;
`data x y z` is the voxel at coordinate `(x, y, z)`, `z` being the axial
slice index. -/
structure Volume where
  nx : Nat
  ny : Nat
  nz : Nat
  data : Nat → Nat → Nat → Bool

/-- Embedding of `vert.sum((0,1))` at slice `z`: the number of true voxels of
the mask in axial slice `z` (summing over the two non-axial axes). -/
def sliceCount (m : Volume) (z : Nat) : Nat :=
  Finset.sum (Finset.range m.nx) fun x =>
    Finset.sum (Finset.range m.ny) fun y => cond (m.data x y z) 1 0

/-- Embedding of `vert.sum()`: the number of true voxels in the whole mask. -/
def total (m : Volume) : Nat :=
  Finset.sum (Finset.range m.nz) fun z => sliceCount m z

/-- Embedding of the per-slice test `(slice/total) > T` from
`np.where((slice/total)>T)`. -/
def ratioAbove (T : ℚ) (m : Volume) (z : Nat) : Bool :=
  decide (T < (sliceCount m z : ℚ) / (total m : ℚ))

/-- Embedding of `arr_th = np.where((slice/total)>T)[0]`: the sorted list of
axial slice indices whose relative density exceeds `T`. -/
def arrTh (m : Volume) (T : ℚ) : List Nat :=
  (List.range m.nz).filter (ratioAbove T m)

/-- Embedding of `chord_t = np.zeros(chord.shape)` followed by
`chord_t[:,:,minv:maxv] = chord[:,:,minv:maxv]`: the chord mask restricted to
the half-open axial range `[minv, maxv)` (numpy slicing excludes the stop
index), zero elsewhere. -/
def confine (chord : Volume) (minv maxv : Nat) : Volume :=
  { chord with data := fun x y z => if minv ≤ z ∧ z < maxv then chord.data x y z else false }

/-- Python `dict` assignment `d[k] = x`: replace the first binding of `k` in
place if present, otherwise append `(k, x)` at the end. -/
def dictInsert {α : Type} (l : List (String × α)) (k : String) (x : α) : List (String × α) :=
  match l with
  | [] => [(k, x)]
  | (k', y) :: rest => if k' = k then (k, x) :: rest else (k', y) :: dictInsert rest k x

/-- Exceptions that escape the `cut_chord` loop: `loadFailure v` models the
SimpleITK read error raised by `load_nifti` when the mask file of `v` does
not exist, and `emptyQualifyingSet v` models the `ValueError` raised by
`arr_th.min()` when no slice of `v` exceeds the threshold. -/
inductive CutError where
  | loadFailure (v : String)
  | emptyQualifyingSet (v : String)
deriving DecidableEq, Repr

/-- One pass of the `for v in self._vertebrae` loop of `cut_chord`,
accumulating the `values` dict and (when `saveAsRS` is set) the
`all_seg_chord_masks` dict. -/
def cutChordAux (chord : Volume) (masks : String → Option Volume) (T : ℚ) (saveAsRS : Bool) :
    List String → List (String × (Nat × Nat)) → List (String × Volume) →
    Except CutError (List (String × (Nat × Nat)) × List (String × Volume))
  | [], values, segs => .ok (values, segs)
  | v :: rest, values, segs =>
    match masks v with
    | none => .error (.loadFailure v)
    | some vert =>
      if total vert ≤ 0 then
        cutChordAux chord masks T saveAsRS rest values segs
      else
        match (arrTh vert T).min?, (arrTh vert T).max? with
        | some minv, some maxv =>
          let values2 := dictInsert values v (minv, maxv)
          if saveAsRS then
            let confined := confine chord minv maxv
            if total confined < 1 then
              cutChordAux chord masks T saveAsRS rest values2 segs
            else
              cutChordAux chord masks T saveAsRS rest values2 (dictInsert segs v confined)
          else
            cutChordAux chord masks T saveAsRS rest values2 segs
        | _, _ => .error (.emptyQualifyingSet v)

/-- Embedding of `ChordCutter.cut_chord`: iterate over the registered
vertebrae, returning the `values` dict (vertebra name to inclusive slice
index pair `(minv, maxv)`) and the dict of confined chord masks that is
handed to the RTStruct writer when `save_as_RS` is true. -/
def cut_chord (chord : Volume) (masks : String → Option Volume)
    (vertebrae : List String) (T : ℚ) (saveAsRS : Bool) :
    Except CutError (List (String × (Nat × Nat)) × List (String × Volume)) :=
  cutChordAux chord masks T saveAsRS vertebrae [] []

/-- Embedding of `ChordCutter.add_vertebrae`: append the identifier unless it
is already registered. -/
def add_vertebrae (l : List String) (v : String) : List String :=
  if v ∈ l then l else l ++ [v]

/-- The seven cervical identifiers hard-coded in `add_vertebrae_group`. -/
def cervicalGroup : List String :=
  ["vertebrae_C1", "vertebrae_C2", "vertebrae_C3", "vertebrae_C4",
   "vertebrae_C5", "vertebrae_C6", "vertebrae_C7"]

/-- The twelve thoracic identifiers hard-coded in `add_vertebrae_group`. -/
def thoraxGroup : List String :=
  ["vertebrae_T1", "vertebrae_T2", "vertebrae_T3", "vertebrae_T4",
   "vertebrae_T5", "vertebrae_T6", "vertebrae_T7", "vertebrae_T8",
   "vertebrae_T9", "vertebrae_T10", "vertebrae_T11", "vertebrae_T12"]

/-- The five lumbar identifiers hard-coded in `add_vertebrae_group`. -/
def lumbarGroup : List String :=
  ["vertebrae_L1", "vertebrae_L2", "vertebrae_L3", "vertebrae_L4",
   "vertebrae_L5"]

/-- Embedding of `ChordCutter.add_vertebrae_group`: expand a named group by
adding each member through `add_vertebrae`; an unrecognized group name raises
`ValueError`, embedded as the error branch. -/
def add_vertebrae_group (l : List String) (vgroup : String) : Except String (List String) :=
  match vgroup with
  | "cervical" => .ok (cervicalGroup.foldl add_vertebrae l)
  | "thorax" => .ok (thoraxGroup.foldl add_vertebrae l)
  | "lumbar" => .ok (lumbarGroup.foldl add_vertebrae l)
  | _ => .error "vertebrae groups: cervical, thorax, lumbar"

/-- Concrete test grid: a 1 × 1 × 3 chord mask that is true everywhere. -/
def chordW : Volume := ⟨1, 1, 3, fun _ _ _ => true⟩

/-- Concrete test mask on the same grid, true exactly on axial slices 0 and 2
(two voxels in total, so each of those slices holds half the mask). -/
def vertA : Volume := ⟨1, 1, 3, fun _ _ z => decide (z = 0 ∨ z = 2)⟩

/-- Concrete test mask on the same grid, true exactly on axial slice 0 (a
single voxel, so slice 0 holds the whole mask). -/
def vertB : Volume := ⟨1, 1, 3, fun _ _ z => decide (z = 0)⟩

/-- Concrete test mask on the same grid with no true voxel. -/
def vertE : Volume := ⟨1, 1, 3, fun _ _ _ => false⟩

/-- Concrete mask directory: identifiers `A`, `B`, `E` have mask files
`vertA`, `vertB`, `vertE`; every other identifier has no file. -/
def masksW : String → Option Volume := fun v =>
  if v = "A" then some vertA else if v = "B" then some vertB
  else if v = "E" then some vertE else none

/-! General lemmas about the dictionary operation. -/

theorem mem_dictInsert_self {α : Type} (l : List (String × α)) (k : String) (x : α) :
    (k, x) ∈ dictInsert l k x := by
  induction l with
  | nil => simp [dictInsert]
  | cons hd tl ih =>
    obtain ⟨k', y⟩ := hd
    by_cases h : k' = k <;> simp [dictInsert, h, ih]

theorem mem_dictInsert_of_ne {α : Type} {l : List (String × α)} {k v : String} {x : α}
    {r : α} (hne : v ≠ k) : (v, r) ∈ dictInsert l k x ↔ (v, r) ∈ l := by
  induction l with
  | nil => simp [dictInsert, Prod.mk.injEq, hne]
  | cons hd tl ih =>
    obtain ⟨k', y⟩ := hd
    by_cases h : k' = k
    · subst h
      simp [dictInsert, List.mem_cons, Prod.mk.injEq, hne]
    · simp [dictInsert, h, List.mem_cons, ih]

theorem mem_dictInsert {α : Type} {l : List (String × α)} {k v : String} {x r : α}
    (h : (v, r) ∈ dictInsert l k x) : (v, r) ∈ l ∨ (v = k ∧ r = x) := by
  induction l with
  | nil =>
    simp only [dictInsert, List.mem_singleton, Prod.mk.injEq] at h
    exact Or.inr h
  | cons hd tl ih =>
    obtain ⟨k', y⟩ := hd
    by_cases hk : k' = k
    · subst hk
      simp [dictInsert, List.mem_cons, Prod.mk.injEq] at h
      rcases h with h | h
      · exact Or.inr h
      · exact Or.inl (List.mem_cons_of_mem _ h)
    · simp only [dictInsert, if_neg hk, List.mem_cons] at h
      rcases h with h | h
      · exact Or.inl (List.mem_cons.2 (Or.inl h))
      · rcases ih h with h' | h'
        · exact Or.inl (List.mem_cons_of_mem _ h')
        · exact Or.inr h'

theorem fst_mem_of_mem_dictInsert {α : Type} {l : List (String × α)} {k w : String} {x : α}
    (h : w ∈ (dictInsert l k x).map Prod.fst) : w ∈ l.map Prod.fst ∨ w = k := by
  rcases List.mem_map.1 h with ⟨⟨v, r⟩, hmem, hv⟩
  rcases mem_dictInsert hmem with h' | h'
  · exact Or.inl (List.mem_map.2 ⟨(v, r), h', hv⟩)
  · exact Or.inr (hv ▸ h'.1)

theorem keys_nodup_dictInsert {α : Type} {l : List (String × α)} {k : String} {x : α}
    (h : (l.map Prod.fst).Nodup) : ((dictInsert l k x).map Prod.fst).Nodup := by
  induction l with
  | nil => simp [dictInsert]
  | cons hd tl ih =>
    obtain ⟨k', y⟩ := hd
    simp only [List.map_cons, List.nodup_cons] at h
    by_cases hk : k' = k
    · subst hk
      simpa [dictInsert, List.nodup_cons] using h
    · simp only [dictInsert, if_neg hk, List.map_cons, List.nodup_cons]
      refine ⟨fun hmem => ?_, ih h.2⟩
      rcases fst_mem_of_mem_dictInsert hmem with h' | h'
      · exact h.1 h'
      · exact hk h'

theorem eq_of_mem_of_keys_nodup {α : Type} {l : List (String × α)} {v : String} {a b : α}
    (h : (l.map Prod.fst).Nodup) (ha : (v, a) ∈ l) (hb : (v, b) ∈ l) : a = b := by
  induction l with
  | nil => simp at ha
  | cons hd tl ih =>
    obtain ⟨k', y⟩ := hd
    simp only [List.map_cons, List.nodup_cons] at h
    simp only [List.mem_cons] at ha hb
    rcases ha with ha | ha <;> rcases hb with hb | hb
    · rw [Prod.mk.injEq] at ha hb
      exact ha.2.trans hb.2.symm
    · rw [Prod.mk.injEq] at ha
      exact absurd (List.mem_map.2 ⟨(v, b), hb, ha.1⟩) h.1
    · rw [Prod.mk.injEq] at hb
      exact absurd (List.mem_map.2 ⟨(v, a), ha, hb.1⟩) h.1
    · exact ih h.2 ha hb

theorem mem_dictInsert_nodup {α : Type} {l : List (String × α)} {k v : String} {x r : α}
    (h : (l.map Prod.fst).Nodup) :
    (v, r) ∈ dictInsert l k x ↔ (v ≠ k ∧ (v, r) ∈ l) ∨ (v = k ∧ r = x) := by
  constructor
  · intro hmem
    by_cases hv : v = k
    · subst hv
      refine Or.inr ⟨rfl, ?_⟩
      exact eq_of_mem_of_keys_nodup (keys_nodup_dictInsert h) hmem (mem_dictInsert_self l v x)
    · exact Or.inl ⟨hv, (mem_dictInsert_of_ne hv).1 hmem⟩
  · rintro (⟨hv, hmem⟩ | ⟨rfl, rfl⟩)
    · exact (mem_dictInsert_of_ne hv).2 hmem
    · exact mem_dictInsert_self l _ _

/-! Lemmas about slice counting and the qualifying-slice set. -/

theorem ratioAbove_true_iff {T : ℚ} {m : Volume} {z : Nat} :
    ratioAbove T m z = true ↔ T < (sliceCount m z : ℚ) / (total m : ℚ) := by
  simp [ratioAbove]

theorem mem_arrTh {m : Volume} {T : ℚ} {z : Nat} :
    z ∈ arrTh m T ↔ z < m.nz ∧ T < (sliceCount m z : ℚ) / (total m : ℚ) := by
  simp [arrTh, List.mem_filter, List.mem_range, ratioAbove_true_iff]

theorem sliceCount_le_total {m : Volume} {z : Nat} (hz : z < m.nz) :
    sliceCount m z ≤ total m := by
  exact Finset.single_le_sum (f := fun z => sliceCount m z)
    (fun i _ => Nat.zero_le _) (Finset.mem_range.2 hz)

theorem arrTh_subset {m : Volume} {T T' : ℚ} (hTT' : T ≤ T') {z : Nat}
    (hz : z ∈ arrTh m T') : z ∈ arrTh m T := by
  rcases mem_arrTh.1 hz with ⟨h1, h2⟩
  exact mem_arrTh.2 ⟨h1, lt_of_le_of_lt hTT' h2⟩

theorem arrTh_eq_nil_of_one_le {m : Volume} {T : ℚ} (hT : 1 ≤ T) : arrTh m T = [] := by
  rw [arrTh, List.filter_eq_nil_iff]
  intro z hz
  rw [Bool.not_eq_true, ← Bool.not_eq_true, ratioAbove_true_iff]
  intro hlt
  have hle : (sliceCount m z : ℚ) / (total m : ℚ) ≤ 1 := by
    rcases Nat.eq_zero_or_pos (total m) with h0 | hpos
    · simp [h0]
    · rw [div_le_one (by exact_mod_cast hpos)]
      exact_mod_cast sliceCount_le_total (List.mem_range.1 hz)
  exact absurd (lt_of_le_of_lt hT hlt) (not_lt.2 hle)

/-! Lemmas about confined volumes. -/

theorem confine_data_of_mem {chord : Volume} {minv maxv x y z : Nat}
    (h1 : minv ≤ z) (h2 : z < maxv) :
    (confine chord minv maxv).data x y z = chord.data x y z := by
  simp [confine, h1, h2]

theorem confine_data_of_not_mem {chord : Volume} {minv maxv x y z : Nat}
    (h : ¬ (minv ≤ z ∧ z < maxv)) :
    (confine chord minv maxv).data x y z = false := by
  simp only [confine, if_neg h]

theorem total_eq_zero_of_data_false {m : Volume} (h : ∀ x y z, m.data x y z = false) :
    total m = 0 := by
  simp [total, sliceCount, h]

theorem confine_degenerate_data {chord : Volume} {mn x y z : Nat} :
    (confine chord mn mn).data x y z = false := by
  refine confine_data_of_not_mem fun ⟨h1, h2⟩ => ?_
  exact absurd (lt_of_le_of_lt h1 h2) (lt_irrefl mn)

/-! Invariants of the `cut_chord` loop. -/

theorem values_persist {chord : Volume} {masks : String → Option Volume} {T : ℚ}
    {save : Bool} {v : String} {r : Nat × Nat} :
    ∀ {l : List String} {values : List (String × (Nat × Nat))} {segs V S},
      v ∉ l → (v, r) ∈ values →
      cutChordAux chord masks T save l values segs = .ok (V, S) → (v, r) ∈ V := by
  intro l
  induction l with
  | nil =>
    intro values segs V S _ hmem hok
    simp only [cutChordAux, Except.ok.injEq, Prod.mk.injEq] at hok
    obtain ⟨rfl, rfl⟩ := hok
    exact hmem
  | cons w rest ih =>
    intro values segs V S hnotin hmem hok
    have hvw : v ≠ w := fun h => hnotin (h ▸ List.mem_cons_self w rest)
    have hvrest : v ∉ rest := fun h => hnotin (List.mem_cons_of_mem _ h)
    simp only [cutChordAux] at hok
    split at hok
    · exact absurd hok (by simp)
    · split at hok
      · exact ih hvrest hmem hok
      · split at hok
        · split at hok
          · split at hok
            · exact ih hvrest ((mem_dictInsert_of_ne hvw).2 hmem) hok
            · exact ih hvrest ((mem_dictInsert_of_ne hvw).2 hmem) hok
          · exact ih hvrest ((mem_dictInsert_of_ne hvw).2 hmem) hok
        · exact absurd hok (by simp)

theorem mem_values_inv {chord : Volume} {masks : String → Option Volume} {T : ℚ}
    {save : Bool} :
    ∀ {l : List String} {values : List (String × (Nat × Nat))} {segs V S},
      cutChordAux chord masks T save l values segs = .ok (V, S) →
      ∀ {v : String} {r : Nat × Nat}, (v, r) ∈ V →
      (v, r) ∈ values ∨ ∃ m, masks v = some m ∧ ¬ total m ≤ 0 ∧
        (arrTh m T).min? = some r.1 ∧ (arrTh m T).max? = some r.2 := by
  intro l
  induction l with
  | nil =>
    intro values segs V S hok v r hmem
    simp only [cutChordAux, Except.ok.injEq, Prod.mk.injEq] at hok
    obtain ⟨rfl, rfl⟩ := hok
    exact Or.inl hmem
  | cons w rest ih =>
    intro values segs V S hok v r hmem
    simp only [cutChordAux] at hok
    split at hok
    · exact absurd hok (by simp)
    · rename_i vert hmv
      split at hok
      · exact ih hok hmem
      · rename_i htot
        split at hok
        · rename_i minv maxv hmin hmax
          have step : (v, r) ∈ dictInsert values w (minv, maxv) →
              (v, r) ∈ values ∨ ∃ m, masks v = some m ∧ ¬ total m ≤ 0 ∧
                (arrTh m T).min? = some r.1 ∧ (arrTh m T).max? = some r.2 := by
            intro hd
            rcases mem_dictInsert hd with hd | ⟨rfl, rfl⟩
            · exact Or.inl hd
            · exact Or.inr ⟨vert, hmv, htot, hmin, hmax⟩
          split at hok
          · split at hok
            · rcases ih hok hmem with hd | hd
              · exact step hd
              · exact Or.inr hd
            · rcases ih hok hmem with hd | hd
              · exact step hd
              · exact Or.inr hd
          · rcases ih hok hmem with hd | hd
            · exact step hd
            · exact Or.inr hd
        · exact absurd hok (by simp)

theorem values_keys_nodup {chord : Volume} {masks : String → Option Volume} {T : ℚ}
    {save : Bool} :
    ∀ {l : List String} {values : List (String × (Nat × Nat))} {segs V S},
      (values.map Prod.fst).Nodup →
      cutChordAux chord masks T save l values segs = .ok (V, S) →
      (V.map Prod.fst).Nodup := by
  intro l
  induction l with
  | nil =>
    intro values segs V S hnd hok
    simp only [cutChordAux, Except.ok.injEq, Prod.mk.injEq] at hok
    obtain ⟨rfl, rfl⟩ := hok
    exact hnd
  | cons w rest ih =>
    intro values segs V S hnd hok
    simp only [cutChordAux] at hok
    split at hok
    · exact absurd hok (by simp)
    · split at hok
      · exact ih hnd hok
      · split at hok
        · split at hok
          · split at hok
            · exact ih (keys_nodup_dictInsert hnd) hok
            · exact ih (keys_nodup_dictInsert hnd) hok
          · exact ih (keys_nodup_dictInsert hnd) hok
        · exact absurd hok (by simp)

theorem segs_inv {chord : Volume} {masks : String → Option Volume} {T : ℚ} {save : Bool} :
    ∀ {l : List String} {values : List (String × (Nat × Nat))} {segs : List (String × Volume)}
      {V S}, l.Nodup →
      cutChordAux chord masks T save l values segs = .ok (V, S) →
      ∀ {v : String} {vol : Volume}, (v, vol) ∈ S →
      (v, vol) ∈ segs ∨ ∃ mn mx, vol = confine chord mn mx ∧
        ¬ total (confine chord mn mx) < 1 ∧ (v, (mn, mx)) ∈ V := by
  intro l
  induction l with
  | nil =>
    intro values segs V S _ hok v vol hmem
    simp only [cutChordAux, Except.ok.injEq, Prod.mk.injEq] at hok
    obtain ⟨rfl, rfl⟩ := hok
    exact Or.inl hmem
  | cons w rest ih =>
    intro values segs V S hnd hok v vol hmem
    have hwrest : w ∉ rest := (List.nodup_cons.1 hnd).1
    have hndrest : rest.Nodup := (List.nodup_cons.1 hnd).2
    simp only [cutChordAux] at hok
    split at hok
    · exact absurd hok (by simp)
    · rename_i vert hmv
      split at hok
      · exact ih hndrest hok hmem
      · rename_i htot
        split at hok
        · rename_i minv maxv hmin hmax
          split at hok
          · split at hok
            · -- chord_t.sum() < 1 : the confined mask is dropped
              exact ih hndrest hok hmem
            · rename_i hcount
              rcases ih hndrest hok hmem with hd | hd
              · rcases mem_dictInsert hd with hd | ⟨rfl, rfl⟩
                · exact Or.inl hd
                · refine Or.inr ⟨minv, maxv, rfl, hcount, ?_⟩
                  exact values_persist hwrest (mem_dictInsert_self values _ _) hok
              · exact Or.inr hd
          · exact ih hndrest hok hmem
        · exact absurd hok (by simp)

theorem aux_mono {chord : Volume} {masks : String → Option Volume} {T T' : ℚ}
    {save : Bool} (hTT' : T ≤ T') :
    ∀ {l : List String} {valsT valsT' : List (String × (Nat × Nat))}
      {segsT segsT' : List (String × Volume)} {V' S'},
      (valsT'.map Prod.fst).Nodup →
      (∀ v mn' mx', (v, (mn', mx')) ∈ valsT' →
        ∃ mn mx, (v, (mn, mx)) ∈ valsT ∧ mn ≤ mn' ∧ mx' ≤ mx) →
      cutChordAux chord masks T' save l valsT' segsT' = .ok (V', S') →
      ∃ V S, cutChordAux chord masks T save l valsT segsT = .ok (V, S) ∧
        ∀ v mn' mx', (v, (mn', mx')) ∈ V' →
          ∃ mn mx, (v, (mn, mx)) ∈ V ∧ mn ≤ mn' ∧ mx' ≤ mx := by
  intro l
  induction l with
  | nil =>
    intro valsT valsT' segsT segsT' V' S' _ hrel hok
    simp only [cutChordAux, Except.ok.injEq, Prod.mk.injEq] at hok
    obtain ⟨rfl, rfl⟩ := hok
    exact ⟨valsT, segsT, rfl, hrel⟩
  | cons w rest ih =>
    intro valsT valsT' segsT segsT' V' S' hnd hrel hok
    simp only [cutChordAux] at hok
    split at hok
    · exact absurd hok (by simp)
    · rename_i vert hmv
      split at hok
      · rename_i htot
        obtain ⟨V, S, haux, hrelV⟩ := ih hnd hrel hok
        refine ⟨V, S, ?_, hrelV⟩
        simp only [cutChordAux, hmv]
        rw [if_pos htot]
        exact haux
      · rename_i htot
        split at hok
        · rename_i minv' maxv' hmin' hmax'
          obtain ⟨hm'el, hm'le⟩ := List.min?_eq_some_iff'.1 hmin'
          obtain ⟨hx'el, hx'le⟩ := List.max?_eq_some_iff'.1 hmax'
          have hsubmin : minv' ∈ arrTh vert T := arrTh_subset hTT' hm'el
          have hsubmax : maxv' ∈ arrTh vert T := arrTh_subset hTT' hx'el
          obtain ⟨mn, hmn⟩ : ∃ mn, (arrTh vert T).min? = some mn := by
            cases h : (arrTh vert T).min? with
            | none => exact absurd (List.min?_eq_none_iff.1 h ▸ hsubmin) (List.not_mem_nil _)
            | some mn => exact ⟨mn, rfl⟩
          obtain ⟨mx, hmx⟩ : ∃ mx, (arrTh vert T).max? = some mx := by
            cases h : (arrTh vert T).max? with
            | none => exact absurd (List.max?_eq_none_iff.1 h ▸ hsubmin) (List.not_mem_nil _)
            | some mx => exact ⟨mx, rfl⟩
          obtain ⟨hmnel, hmnle⟩ := List.min?_eq_some_iff'.1 hmn
          obtain ⟨hmxel, hmxle⟩ := List.max?_eq_some_iff'.1 hmx
          have h1 : mn ≤ minv' := hmnle _ hsubmin
          have h2 : maxv' ≤ mx := hmxle _ hsubmax
          have hnd2 : ((dictInsert valsT' w (minv', maxv')).map Prod.fst).Nodup :=
            keys_nodup_dictInsert hnd
          have hrel2 : ∀ v a' b', (v, (a', b')) ∈ dictInsert valsT' w (minv', maxv') →
              ∃ a b, (v, (a, b)) ∈ dictInsert valsT w (mn, mx) ∧ a ≤ a' ∧ b' ≤ b := by
            intro v a' b' hv
            rcases (mem_dictInsert_nodup hnd).1 hv with ⟨hvw, hv⟩ | ⟨rfl, heq⟩
            · obtain ⟨a, b, hab, h3, h4⟩ := hrel v a' b' hv
              exact ⟨a, b, (mem_dictInsert_of_ne hvw).2 hab, h3, h4⟩
            · rw [Prod.mk.injEq] at heq
              obtain ⟨rfl, rfl⟩ := heq
              exact ⟨mn, mx, mem_dictInsert_self _ _ _, h1, h2⟩
          have hok2 : ∃ segsY',
              cutChordAux chord masks T' save rest (dictInsert valsT' w (minv', maxv'))
                segsY' = .ok (V', S') := by
            split at hok
            · split at hok
              · exact ⟨_, hok⟩
              · exact ⟨_, hok⟩
            · exact ⟨_, hok⟩
          obtain ⟨segsY', hok2⟩ := hok2
          obtain ⟨V, S, haux, hrelV⟩ :=
            @ih (dictInsert valsT w (mn, mx)) (dictInsert valsT' w (minv', maxv'))
              (if save then
                (if total (confine chord mn mx) < 1 then segsT
                 else dictInsert segsT w (confine chord mn mx)) else segsT)
              segsY' V' S' hnd2 hrel2 hok2
          refine ⟨V, S, ?_, hrelV⟩
          simp only [cutChordAux, hmv]
          rw [if_neg htot, hmn, hmx]
          rw [apply_ite (cutChordAux chord masks T save rest (dictInsert valsT w (mn, mx))),
            apply_ite (cutChordAux chord masks T save rest (dictInsert valsT w (mn, mx)))] at haux
          exact haux
        · exact absurd hok (by simp)

theorem aux_error_of_empty_arrTh {chord : Volume} {masks : String → Option Volume} {T : ℚ}
    {save : Bool} {v : String} {m : Volume} (hm : masks v = some m)
    (htot : ¬ total m ≤ 0) (he : arrTh m T = [])
    (rest : List String) (values : List (String × (Nat × Nat)))
    (segs : List (String × Volume)) :
    cutChordAux chord masks T save (v :: rest) values segs =
      .error (.emptyQualifyingSet v) := by
  simp only [cutChordAux, hm]
  rw [if_neg htot, he]
  rfl

/-! Settling the claims. -/

/-- Claim C1, counterexample: with threshold 1/2 the mask of vertebra `A` has
two true voxels spread over two slices, so no slice exceeds the threshold
even though `total > 0`; `cut_chord` then aborts the whole batch with the
error raised by `arr_th.min()` on an empty array, and vertebra `B` — which
on its own would be processed successfully — is never reached.  No
per-vertebra condition is recorded and no result is returned, contradicting
the claim that processing of the remaining vertebrae continues. -/
theorem C1_counterexample :
    cut_chord chordW masksW ["A", "B"] (1/2) false = .error (.emptyQualifyingSet "A") ∧
    0 < total vertA ∧
    cut_chord chordW masksW ["B"] (1/2) false = .ok ([("B", (0, 0))], []) := by
  refine ⟨by with_unfolding_all rfl, by decide, by with_unfolding_all rfl⟩

/-- Claim C1, amended: when the loop of `cut_chord` reaches a vertebra whose
mask has `total > 0` but whose qualifying-slice set is empty, the call
raises immediately (the `ValueError` of `arr_th.min()` on an empty array):
the whole batch aborts, the remaining vertebrae are not processed, and no
partial result is returned. -/
theorem C1_batch_aborts {chord : Volume} {masks : String → Option Volume} {T : ℚ}
    {save : Bool} {v : String} {m : Volume} (hm : masks v = some m)
    (htot : ¬ total m ≤ 0) (he : arrTh m T = [])
    (rest : List String) (values : List (String × (Nat × Nat)))
    (segs : List (String × Volume)) :
    cutChordAux chord masks T save (v :: rest) values segs =
      .error (.emptyQualifyingSet v) :=
  aux_error_of_empty_arrTh hm htot he rest values segs

/-- Witness for the amended claim C1 at the concrete inputs of the
counterexample. -/
theorem C1_batch_aborts_witness :
    masksW "A" = some vertA ∧ ¬ total vertA ≤ 0 ∧ arrTh vertA (1/2) = [] ∧
    cutChordAux chordW masksW (1/2) false ["A", "B"] [] [] =
      .error (.emptyQualifyingSet "A") :=
  ⟨rfl, by decide, by with_unfolding_all rfl,
    C1_batch_aborts rfl (by decide) (by with_unfolding_all rfl) ["B"] [] []⟩

/-- Claim C2, counterexample: `cut_chord` performs no threshold validation at
all.  Called with threshold 1.2 and an empty vertebra list it succeeds and
returns an empty result instead of failing; called with threshold 1.2 and
vertebra `A` it first loads and processes the mask of `A` and then fails
with the empty-qualifying-set error of `arr_th.min()`, not with any
`InvalidThreshold` error raised before touching a mask. -/
theorem C2_counterexample :
    cut_chord chordW masksW [] (6/5) false = .ok ([], []) ∧
    cut_chord chordW masksW ["A"] (6/5) false = .error (.emptyQualifyingSet "A") := by
  refine ⟨rfl, by with_unfolding_all rfl⟩

/-- Claim C2, amended: `cut_chord` accepts any threshold without validation;
there is no `InvalidThreshold` failure.  For a threshold `T ≥ 1` (such as
1.2) no slice can exceed `T`, so the call aborts with the empty-array
`ValueError` at the first vertebra whose mask has `total > 0`, after that
mask has been loaded and processed; a call whose vertebrae all lack
positive-total masks completes normally even with `T = 1.2`. -/
theorem C2_no_threshold_validation {chord : Volume} {masks : String → Option Volume}
    {T : ℚ} {save : Bool} {v : String} {m : Volume} (hT : 1 ≤ T)
    (hm : masks v = some m) (htot : ¬ total m ≤ 0)
    (rest : List String) (values : List (String × (Nat × Nat)))
    (segs : List (String × Volume)) :
    cutChordAux chord masks T save (v :: rest) values segs =
      .error (.emptyQualifyingSet v) :=
  aux_error_of_empty_arrTh hm htot (arrTh_eq_nil_of_one_le hT) rest values segs

/-- Witness for the amended claim C2 at threshold 6/5 = 1.2. -/
theorem C2_no_threshold_validation_witness :
    (1 : ℚ) ≤ 6/5 ∧ masksW "A" = some vertA ∧ ¬ total vertA ≤ 0 ∧
    cutChordAux chordW masksW (6/5) false ["A", "B"] [] [] =
      .error (.emptyQualifyingSet "A") :=
  ⟨by with_unfolding_all decide, rfl, by decide,
    C2_no_threshold_validation (by with_unfolding_all decide) rfl (by decide) ["B"] [] []⟩

/-- Claim C3, counterexample: for vertebra `A` under threshold 1/4 the range
`(0, 2)` is emitted and a confined mask is produced, but the slice
assignment `chord_t[:,:,minv:maxv] = chord[:,:,minv:maxv]` uses a numpy
slice that excludes `maxv`: the confined mask is false at slice `z = 2`
although the chord mask is true there and `2` lies inside the inclusive
range `[0, 2]`, contradicting the claimed equality on every slice with
`minZ ≤ z ≤ maxZ`. -/
theorem C3_counterexample :
    cut_chord chordW masksW ["A"] (1/4) true =
      .ok ([("A", (0, 2))], [("A", confine chordW 0 2)]) ∧
    (confine chordW 0 2).data 0 0 2 = false ∧ chordW.data 0 0 2 = true := by
  refine ⟨by with_unfolding_all rfl, by decide, rfl⟩

/-- Claim C3, amended: every produced confined volume equals the chord mask
on the half-open axial range `minZ ≤ z < maxZ` — the top slice `maxZ` is
excluded by the numpy slice `minv:maxv` — identically across the other two
axes, and is zero on every slice outside that half-open range (in
particular at `maxZ` itself). -/
theorem C3_confined_halfopen {chord : Volume} {masks : String → Option Volume}
    {verts : List String} {T : ℚ} {V : List (String × (Nat × Nat))}
    {S : List (String × Volume)} {v : String} {vol : Volume}
    (hnd : verts.Nodup) (hok : cut_chord chord masks verts T true = .ok (V, S))
    (hseg : (v, vol) ∈ S) :
    ∃ mn mx, (v, (mn, mx)) ∈ V ∧
      (∀ x y z, mn ≤ z → z < mx → vol.data x y z = chord.data x y z) ∧
      (∀ x y z, ¬ (mn ≤ z ∧ z < mx) → vol.data x y z = false) := by
  replace hok : cutChordAux chord masks T true verts [] [] = .ok (V, S) := hok
  rcases segs_inv hnd hok hseg with h | ⟨mn, mx, rfl, _, hv⟩
  · exact absurd h (List.not_mem_nil _)
  · exact ⟨mn, mx, hv, fun x y z h1 h2 => confine_data_of_mem h1 h2,
      fun x y z h => confine_data_of_not_mem h⟩

/-- Witness for the amended claim C3 at the concrete inputs of the
counterexample. -/
theorem C3_confined_halfopen_witness :
    List.Nodup ["A"] ∧
    cut_chord chordW masksW ["A"] (1/4) true =
      .ok ([("A", (0, 2))], [("A", confine chordW 0 2)]) ∧
    ∃ mn mx, ("A", (mn, mx)) ∈ [("A", (0, 2))] ∧
      (∀ x y z, mn ≤ z → z < mx →
        (confine chordW 0 2).data x y z = chordW.data x y z) ∧
      (∀ x y z, ¬ (mn ≤ z ∧ z < mx) → (confine chordW 0 2).data x y z = false) :=
  ⟨by simp, by with_unfolding_all rfl,
    @C3_confined_halfopen chordW masksW ["A"] (1/4) [("A", (0, 2))]
      [("A", confine chordW 0 2)] "A" (confine chordW 0 2)
      (by simp) (by with_unfolding_all rfl) (List.mem_singleton.2 rfl)⟩

/-- Claim C4, counterexample: a vertebra identifier with no mask file is not
skipped.  `cut_chord` calls `load_nifti` unconditionally, and the read error
raised on the missing file aborts the whole call: with order `["X", "B"]`
and no mask for `X`, the call fails at `X` and never reaches `B`. -/
theorem C4_counterexample :
    masksW "X" = none ∧
    cut_chord chordW masksW ["X", "B"] (1/2) false = .error (.loadFailure "X") := by
  exact ⟨rfl, rfl⟩

/-- Claim C4, amended: a vertebra in the processing order whose mask file is
absent causes `cut_chord` to fail at mask-load time, aborting the batch —
absence of the mask file is treated as a failure.  Only a vertebra whose
mask file exists but contains no true voxel is skipped without error. -/
theorem C4_missing_mask_fails {chord : Volume} {masks : String → Option Volume}
    {T : ℚ} {save : Bool} {v : String} (hm : masks v = none)
    (rest : List String) (values : List (String × (Nat × Nat)))
    (segs : List (String × Volume)) :
    cutChordAux chord masks T save (v :: rest) values segs = .error (.loadFailure v) := by
  simp only [cutChordAux, hm]

/-- Witness for the amended claim C4 at the concrete inputs of the
counterexample. -/
theorem C4_missing_mask_fails_witness :
    masksW "X" = none ∧
    cutChordAux chordW masksW (1/2) false ["X", "B"] [] [] = .error (.loadFailure "X") :=
  ⟨rfl, C4_missing_mask_fails rfl ["B"] [] []⟩

/-- Claim C5, confirmed: whenever `cut_chord` emits a range `(mn, mx)` for a
vertebra, its mask exists, has `total > 0`, and both endpoints are
themselves members of the qualifying set: `sliceCount(mn)/total > T` and
`sliceCount(mx)/total > T`. -/
theorem C5_endpoints_qualify {chord : Volume} {masks : String → Option Volume}
    {verts : List String} {T : ℚ} {save : Bool} {V : List (String × (Nat × Nat))}
    {S : List (String × Volume)} {v : String} {mn mx : Nat}
    (_h0 : 0 < T) (_h1 : T < 1)
    (hok : cut_chord chord masks verts T save = .ok (V, S))
    (hv : (v, (mn, mx)) ∈ V) :
    ∃ m, masks v = some m ∧ 0 < total m ∧
      T < (sliceCount m mn : ℚ) / (total m : ℚ) ∧
      T < (sliceCount m mx : ℚ) / (total m : ℚ) := by
  replace hok : cutChordAux chord masks T save verts [] [] = .ok (V, S) := hok
  rcases mem_values_inv hok hv with h | ⟨m, hmk, htot, hmin, hmax⟩
  · exact absurd h (List.not_mem_nil _)
  · have hpos : 0 < total m := Nat.pos_of_ne_zero fun h0 => htot (Nat.le_of_eq h0)
    obtain ⟨hminmem, _⟩ := List.min?_eq_some_iff'.1 hmin
    obtain ⟨hmaxmem, _⟩ := List.max?_eq_some_iff'.1 hmax
    exact ⟨m, hmk, hpos, (mem_arrTh.1 hminmem).2, (mem_arrTh.1 hmaxmem).2⟩

/-- Witness for claim C5: vertebra `A` under threshold 1/4 gets the range
`(0, 2)` and both endpoint slices hold half of the mask, which exceeds the
threshold. -/
theorem C5_endpoints_qualify_witness :
    (0 : ℚ) < 1/4 ∧ (1/4 : ℚ) < 1 ∧
    cut_chord chordW masksW ["A"] (1/4) false = .ok ([("A", (0, 2))], []) ∧
    ∃ m, masksW "A" = some m ∧ 0 < total m ∧
      (1/4 : ℚ) < (sliceCount m 0 : ℚ) / (total m : ℚ) ∧
      (1/4 : ℚ) < (sliceCount m 2 : ℚ) / (total m : ℚ) :=
  ⟨by with_unfolding_all decide, by with_unfolding_all decide,
    by with_unfolding_all rfl,
    @C5_endpoints_qualify chordW masksW ["A"] (1/4) false [("A", (0, 2))] [] "A" 0 2
      (by with_unfolding_all decide) (by with_unfolding_all decide)
      (by with_unfolding_all rfl) (by decide)⟩

/-- Claim C6, confirmed: for the same inputs and two valid thresholds
`T < T'`, if the run at the higher threshold `T'` succeeds then the run at
`T` succeeds as well, and every range emitted under `T'` is contained in the
range emitted for the same vertebra under `T` — raising the threshold can
only shrink a range, leave it unchanged, or eliminate it. -/
theorem C6_threshold_monotone {chord : Volume} {masks : String → Option Volume}
    {verts : List String} {T T' : ℚ} {save : Bool}
    {V' : List (String × (Nat × Nat))} {S' : List (String × Volume)}
    (_h0 : 0 < T) (hTT' : T < T') (_h1 : T' < 1)
    (hok' : cut_chord chord masks verts T' save = .ok (V', S')) :
    ∃ V S, cut_chord chord masks verts T save = .ok (V, S) ∧
      ∀ v mn' mx', (v, (mn', mx')) ∈ V' →
        ∃ mn mx, (v, (mn, mx)) ∈ V ∧ mn ≤ mn' ∧ mx' ≤ mx := by
  replace hok' : cutChordAux chord masks T' save verts [] [] = .ok (V', S') := hok'
  obtain ⟨V, S, haux, hrel⟩ := aux_mono (le_of_lt hTT') (by simp)
    (fun v mn' mx' h => absurd h (List.not_mem_nil _)) hok'
  exact ⟨V, S, haux, hrel⟩

/-- Witness for claim C6 with thresholds 1/4 < 1/3 on vertebra `A`. -/
theorem C6_threshold_monotone_witness :
    (0 : ℚ) < 1/4 ∧ (1/4 : ℚ) < 1/3 ∧ (1/3 : ℚ) < 1 ∧
    cut_chord chordW masksW ["A"] (1/3) false = .ok ([("A", (0, 2))], []) ∧
    ∃ V S, cut_chord chordW masksW ["A"] (1/4) false = .ok (V, S) ∧
      ∀ v mn' mx', (v, (mn', mx')) ∈ [("A", (0, 2))] →
        ∃ mn mx, (v, (mn, mx)) ∈ V ∧ mn ≤ mn' ∧ mx' ≤ mx :=
  ⟨by with_unfolding_all decide, by with_unfolding_all decide,
    by with_unfolding_all decide, by with_unfolding_all rfl,
    @C6_threshold_monotone chordW masksW ["A"] (1/4) (1/3) false [("A", (0, 2))] []
      (by with_unfolding_all decide) (by with_unfolding_all decide)
      (by with_unfolding_all decide) (by with_unfolding_all rfl)⟩

/-- Claim C7, confirmed: a vertebra whose confined chord volume counts zero
true voxels keeps its range entry in the primary result but is absent from
the confined-mask outputs handed to the structure-set writer. -/
theorem C7_overlap_exclusion {chord : Volume} {masks : String → Option Volume}
    {verts : List String} {T : ℚ} {V : List (String × (Nat × Nat))}
    {S : List (String × Volume)} {v : String} {mn mx : Nat}
    (hnd : verts.Nodup) (hok : cut_chord chord masks verts T true = .ok (V, S))
    (hv : (v, (mn, mx)) ∈ V) (hz : total (confine chord mn mx) = 0) :
    (v, (mn, mx)) ∈ V ∧ ∀ vol : Volume, (v, vol) ∉ S := by
  replace hok : cutChordAux chord masks T true verts [] [] = .ok (V, S) := hok
  refine ⟨hv, fun vol hvol => ?_⟩
  have hndV := values_keys_nodup (by simp) hok
  rcases segs_inv hnd hok hvol with h | ⟨mn', mx', _, hcount, hv'⟩
  · exact absurd h (List.not_mem_nil _)
  · have heq : ((mn', mx') : Nat × Nat) = (mn, mx) :=
      eq_of_mem_of_keys_nodup hndV hv' hv
    rw [Prod.mk.injEq] at heq
    obtain ⟨rfl, rfl⟩ := heq
    exact hcount (by rw [hz]; exact Nat.zero_lt_one)

/-- Witness for claim C7: vertebra `B` gets the degenerate range `(0, 0)`,
whose confined mask is empty, so `B` is excluded from the confined outputs
while keeping its range entry. -/
theorem C7_overlap_exclusion_witness :
    List.Nodup ["B"] ∧
    cut_chord chordW masksW ["B"] (1/2) true = .ok ([("B", (0, 0))], []) ∧
    total (confine chordW 0 0) = 0 ∧
    ("B", confine chordW 0 2) ∉ ([] : List (String × Volume)) :=
  ⟨by simp, by with_unfolding_all rfl, by decide,
    (@C7_overlap_exclusion chordW masksW ["B"] (1/2) [("B", (0, 0))] [] "B" 0 0
      (by simp) (by with_unfolding_all rfl) (by decide)
      (by decide)).2 (confine chordW 0 2)⟩

/-- Claim C8, confirmed: a vertebra whose mask exists but has zero true
voxels is skipped without error and never appears in the returned result. -/
theorem C8_empty_mask_skipped {chord : Volume} {masks : String → Option Volume}
    {verts : List String} {T : ℚ} {save : Bool} {V : List (String × (Nat × Nat))}
    {S : List (String × Volume)} {v : String} {m : Volume}
    (hok : cut_chord chord masks verts T save = .ok (V, S))
    (hm : masks v = some m) (ht : total m = 0) :
    ∀ r : Nat × Nat, (v, r) ∉ V := by
  replace hok : cutChordAux chord masks T save verts [] [] = .ok (V, S) := hok
  intro r hr
  rcases mem_values_inv hok hr with h | ⟨m', hm', htot', _, _⟩
  · exact absurd h (List.not_mem_nil _)
  · have : m' = m := by rw [hm] at hm'; exact (Option.some.injEq _ _ ▸ hm').symm
    exact htot' (this ▸ Nat.le_of_eq ht)

/-- Witness for claim C8: vertebra `E` has an all-false mask and is absent
from the result of a run over `["E", "B"]`. -/
theorem C8_empty_mask_skipped_witness :
    masksW "E" = some vertE ∧ total vertE = 0 ∧
    cut_chord chordW masksW ["E", "B"] (1/2) false = .ok ([("B", (0, 0))], []) ∧
    ("E", ((0, 0) : Nat × Nat)) ∉ [("B", ((0, 0) : Nat × Nat))] :=
  ⟨rfl, by decide, by with_unfolding_all rfl,
    @C8_empty_mask_skipped chordW masksW ["E", "B"] (1/2) false [("B", (0, 0))] []
      "E" vertE (by with_unfolding_all rfl) rfl (by decide) (0, 0)⟩

/-- Claim C9, confirmed: expanding the `cervical` group on an empty registry
adds exactly the seven cervical identifiers in anatomical order, and
expanding it a second time leaves the registry unchanged — `add_vertebrae`
is a no-op for identifiers already present and preserves first-insertion
order, so no duplicates arise. -/
theorem C9_cervical_group_idempotent :
    add_vertebrae_group [] "cervical" = .ok cervicalGroup ∧
    (add_vertebrae_group [] "cervical").bind
      (fun l => add_vertebrae_group l "cervical") = .ok cervicalGroup ∧
    cervicalGroup.Nodup ∧ cervicalGroup.length = 7 := by
  refine ⟨rfl, rfl, by decide, rfl⟩

/-- Claim C10, confirmed: a vertebra whose emitted range is degenerate
(`minZ = maxZ`) has an identically-zero confined volume — the numpy slice
`minv:maxv` copies nothing when the bounds coincide — so it is never part of
the confined-mask outputs, whatever the chord mask holds at slice `minZ`. -/
theorem C10_degenerate_range_empty {chord : Volume} {masks : String → Option Volume}
    {verts : List String} {T : ℚ} {V : List (String × (Nat × Nat))}
    {S : List (String × Volume)} {v : String} {mn : Nat}
    (hnd : verts.Nodup) (hok : cut_chord chord masks verts T true = .ok (V, S))
    (hv : (v, (mn, mn)) ∈ V) :
    (∀ x y z, (confine chord mn mn).data x y z = false) ∧
    ∀ vol : Volume, (v, vol) ∉ S := by
  replace hok : cutChordAux chord masks T true verts [] [] = .ok (V, S) := hok
  refine ⟨fun x y z => confine_degenerate_data, fun vol hvol => ?_⟩
  have hndV := values_keys_nodup (by simp) hok
  rcases segs_inv hnd hok hvol with h | ⟨mn', mx', _, hcount, hv'⟩
  · exact absurd h (List.not_mem_nil _)
  · have heq : ((mn', mx') : Nat × Nat) = (mn, mn) :=
      eq_of_mem_of_keys_nodup hndV hv' hv
    rw [Prod.mk.injEq] at heq
    obtain ⟨rfl, rfl⟩ := heq
    refine hcount ?_
    rw [total_eq_zero_of_data_false fun x y z => confine_degenerate_data]
    exact Nat.zero_lt_one

/-- Witness for claim C10: vertebra `B` under threshold 1/2 gets the
degenerate range `(0, 0)`; its confined volume is identically zero and `B`
is absent from the confined outputs although the chord occupies slice 0. -/
theorem C10_degenerate_range_empty_witness :
    cut_chord chordW masksW ["B"] (1/2) true = .ok ([("B", (0, 0))], []) ∧
    chordW.data 0 0 0 = true ∧
    (confine chordW 0 0).data 0 0 0 = false ∧
    ("B", confine chordW 0 0) ∉ ([] : List (String × Volume)) :=
  ⟨by with_unfolding_all rfl, rfl,
    (@C10_degenerate_range_empty chordW masksW ["B"] (1/2) [("B", (0, 0))] [] "B" 0
      (by simp) (by with_unfolding_all rfl) (by decide)).1 0 0 0,
    (@C10_degenerate_range_empty chordW masksW ["B"] (1/2) [("B", (0, 0))] [] "B" 0
      (by simp) (by with_unfolding_all rfl) (by decide)).2
      (confine chordW 0 0)⟩

end ChordCutter
